import Mathlib

/-!
Verification of the exrtool core (src/exrtool.cpp).

Shallow embedding of the frame-grouping, channel-merge and worker-scheduling
engine of `exrtool.cpp`, together with theorems settling the specification
claims.  Machine integers are modelled as `Nat` with explicit reduction
modulo `2^32` where the C code computes in `uint32_t`.
-/

namespace Exrtool

/-- The `no frame` sentinel: `~0u` in `strip_frame` (exrtool.cpp line 24),
i.e. `2^32 - 1` as an unsigned 32-bit value. -/
def NO_FRAME : Nat := 2 ^ 32 - 1

/-- Numeric value of a decimal digit character. -/
def digitVal (c : Char) : Nat := c.toNat - '0'.toNat

/-- Value of a run of decimal digit characters, most significant first. -/
def digitsToNat (ds : List Char) : Nat :=
  ds.foldl (fun a c => a * 10 + digitVal c) 0

/-- Model of `(uint32_t)atoi(begin)` applied to a run of decimal digits
(exrtool.cpp line 26).  glibc `atoi` is `(int)strtol(s, 10)`: `strtol`
clamps to `LONG_MAX = 2^63 - 1` on overflow, the `long → int` conversion
wraps modulo `2^32` (gcc/x86-64 behaviour), and the final cast to
`uint32_t` reinterprets the same 32 bits.  The net result on a digit run
of value `v` is `min v (2^63 - 1) mod 2^32`. -/
def atoiU32 (ds : List Char) : Nat :=
  (min (digitsToNat ds) (2 ^ 63 - 1)) % 2 ^ 32

/-- The digit run delimited by the two pointer loops of `strip_frame`
(exrtool.cpp lines 20-23): scan the filename from its end, skip the
trailing run of non-digit characters, then take the maximal run of digit
characters immediately preceding it. -/
def frameRun (s : List Char) : List Char :=
  ((s.reverse.dropWhile (fun c => !c.isDigit)).takeWhile (fun c => c.isDigit)).reverse

/-- Embedding of `strip_frame` (exrtool.cpp lines 18-27): if the digit run
is empty return `~0u`, else parse the run with `atoi` and cast the result
to `uint32_t`. -/
def strip_frame (s : List Char) : Nat :=
  if (frameRun s).isEmpty then NO_FRAME else atoiU32 (frameRun s)

/-! Channel data and the merge (the ChannelMerger state). -/

/-- One decoded channel as `process_frame` sees it: an `EXRChannelInfo`
(name, `pixel_type`) paired with the plane pointer `image.images[i]`
(exrtool.cpp lines 115-118).  The pointer is modelled as an opaque
identifier. -/
structure Chan where
  name : String
  pixelType : Nat
  data : Nat
deriving DecidableEq, Repr

/-- An `exrtool_run_file` (exrtool.cpp lines 29-38): file name plus the set
of requested channel names.  The C `unordered_set` is only used through
membership (`use_channel`), so a list with `contains` is a faithful model. -/
structure RunFile where
  name : String
  channels : List String
deriving DecidableEq, Repr

/-- Membership test `use_channel` of `exrtool_run_file` (exrtool.cpp lines 34-37). -/
def RunFile.use_channel (f : RunFile) (c : String) : Bool :=
  f.channels.contains c

/-- Outcome of the codec collaborator on one file: failure at one of the
three decode stages (`ParseEXRVersionFromFile`, `ParseEXRHeaderFromFile`,
`LoadEXRImageFromFile`), or success with the header's non-channel fields
(modelled as an opaque `meta`) and the decoded channel list in header
order. -/
inductive DecodeResult where
  | versionError
  | headerError
  | imageError
  | ok (meta : Nat) (chans : List Chan)
deriving DecidableEq, Repr

/-- The codec collaborator: decode outcome per file path. -/
def Codec := String → DecodeResult

/-- Errors pushed by `run.error(...)`, tagged by call site
(exrtool.cpp lines 87, 95, 106, 140, 178). -/
inductive Err where
  | versionError (file : String)
  | headerError (file : String)
  | imageError (file : String)
  | noChannels (frame : Nat)
  | saveError (path : List Char)
deriving DecidableEq, Repr

/-- Lexicographic character-list comparison, the model of
`strcmp(lhs.name, rhs.name) < 0` used by the merge's `lower_bound`
comparator (exrtool.cpp lines 121-123), on character code points. -/
def ltChars : List Char → List Char → Bool
  | [], [] => false
  | [], _ :: _ => true
  | _ :: _, [] => false
  | a :: as, b :: bs =>
    if a.toNat < b.toNat then true
    else if b.toNat < a.toNat then false
    else ltChars as bs

/-- Name comparison of the merge: `strcmp(a, b) < 0`. -/
def strLt (a b : String) : Bool := ltChars a.data b.data

/-- The `lower_bound` + overwrite-or-insert step of the merge
(exrtool.cpp lines 120-132), on the name-sorted channel vector:
walk past names strictly below `c.name`; on an equal name replace the
entry (`*it = chan; datas[offset] = data`), otherwise insert `c` before
the first larger name. -/
def insertChannel (chs : List Chan) (c : Chan) : List Chan :=
  match chs with
  | [] => [c]
  | x :: xs =>
    if strLt c.name x.name then c :: x :: xs
    else if x.name = c.name then c :: xs
    else x :: insertChannel xs c

/-- The per-file merge loop (exrtool.cpp lines 115-133): scan the decoded
channels in header order and insert each one whose name is in the file's
requested set. -/
def mergeFile (f : RunFile) (chs : List Chan) (cs : List Chan) : List Chan :=
  cs.foldl (fun acc c => if f.use_channel c.name then insertChannel acc c else acc) chs

/-! The per-frame task (`process_frame`). -/

/-- Running state of the decode loop of `process_frame`
(exrtool.cpp lines 72-137): the merged channel vector (`channels`/`datas`
zipped), the non-channel header data of the files decoded so far
(`headers`, in push order), the number of `a_progress` increments, the
errors recorded, and the `ok` flag. -/
structure DecodeState where
  chs : List Chan
  metas : List Nat
  progress : Nat
  errors : List Err
  ok : Bool
deriving DecidableEq, Repr

/-- The decode loop of `process_frame` (exrtool.cpp lines 80-137): for each
file in order, decode version, header and image; any failure records an
error, clears `ok` and breaks out of the loop; on success `a_progress` is
incremented (line 113) and the file's requested channels are merged
(lines 115-133) and its header pushed (line 135). -/
def decodeLoop (codec : Codec) : List RunFile → DecodeState → DecodeState
  | [], st => st
  | f :: fs, st =>
    match codec f.name with
    | .versionError =>
      { st with errors := st.errors ++ [.versionError f.name], ok := false }
    | .headerError =>
      { st with errors := st.errors ++ [.headerError f.name], ok := false }
    | .imageError =>
      { st with errors := st.errors ++ [.imageError f.name], ok := false }
    | .ok meta cs =>
      decodeLoop codec fs
        { st with chs := mergeFile f st.chs cs,
                  metas := st.metas ++ [meta],
                  progress := st.progress + 1 }

/-- Index of the rightmost `'#'` in the template:
`name.find_last_of('#')` (exrtool.cpp line 162). -/
def findLastHash (tmpl : List Char) : Option Nat :=
  match List.findIdx? (fun c => c = '#') tmpl.reverse with
  | none => none
  | some i => some (tmpl.length - 1 - i)

/-- Start of the maximal `'#'` run ending at index `e`:
`while (begin > 0 && name[begin - 1] == '#') begin--;`
(exrtool.cpp lines 164-165). -/
def hashRunBegin (tmpl : List Char) : Nat → Nat
  | 0 => 0
  | e + 1 => if tmpl[e]? = some '#' then hashRunBegin tmpl e else e + 1

/-- The output of `snprintf(buf, 32, "%0*u", num, frame)` before
truncation: the decimal digits of `frame`, zero-padded on the left to
field width `num` (a minimum width; longer digit strings are not cut). -/
def padded (num frame : Nat) : List Char :=
  List.replicate (num - (Nat.toDigits 10 frame).length) '0' ++ Nat.toDigits 10 frame

/-- Output path computation (exrtool.cpp lines 161-171): locate the
rightmost `'#'` and the maximal run of `'#'` ending there; when the frame
is real and a `'#'` exists, replace the run with the zero-padded frame
number as written by `snprintf` into a 32-byte buffer — i.e. truncated to
at most 31 characters; otherwise the template is used verbatim. -/
def outputName (tmpl : List Char) (frame : Nat) : List Char :=
  match findLastHash tmpl with
  | some e =>
    if frame ≠ NO_FRAME then
      let b := hashRunBegin tmpl e
      let num := e - b + 1
      tmpl.take b ++ (padded num frame).take 31 ++ tmpl.drop (e + 1)
    else tmpl
  | none => tmpl

/-- Result of `process_frame` (exrtool.cpp lines 70-194).  `saved` holds
the arguments of the `SaveEXRImageToFile` call when one was made: the
composite header's non-channel data (copied from `headers[0]`, line 145),
its merged channel table (lines 154-159) and the output path.  `oob` marks
the out-of-bounds access that `headers[0]` would be if `headers` were
empty at that point. -/
structure FrameResult where
  ok : Bool
  channels : List Chan
  metas : List Nat
  progress : Nat
  errors : List Err
  saved : Option (Nat × List Chan × List Char)
  oob : Bool
deriving DecidableEq, Repr

/-- Tail of `process_frame` after the decode loop (exrtool.cpp lines
139-194): if the loop succeeded but the merged channel table is empty,
record a `no channels` error (lines 139-142); if it succeeded with
channels, assemble the composite from `headers[0]` plus the merged table
and attempt the save (lines 144-182), recording an error on save failure;
finally increment `a_progress` once more unconditionally (line 184). -/
def finishFrame (saveOk : List Char → Bool) (tmpl : List Char) (frame : Nat)
    (st : DecodeState) : FrameResult :=
  if st.ok && !st.chs.isEmpty then
    match st.metas with
    | [] =>
      { ok := false, channels := st.chs, metas := [],
        progress := st.progress + 1, errors := st.errors, saved := none,
        oob := true }
    | m :: rest =>
      if saveOk (outputName tmpl frame) then
        { ok := true, channels := st.chs, metas := m :: rest,
          progress := st.progress + 1, errors := st.errors,
          saved := some (m, st.chs, outputName tmpl frame), oob := false }
      else
        { ok := false, channels := st.chs, metas := m :: rest,
          progress := st.progress + 1,
          errors := st.errors ++ [.saveError (outputName tmpl frame)],
          saved := some (m, st.chs, outputName tmpl frame), oob := false }
  else
    let errs := if st.ok && st.chs.isEmpty then st.errors ++ [.noChannels frame]
      else st.errors
    { ok := false, channels := st.chs, metas := st.metas,
      progress := st.progress + 1, errors := errs, saved := none, oob := false }

/-- Initial state of the decode loop: the local vectors of `process_frame`
start empty and `ok` starts `true` (exrtool.cpp lines 72-78). -/
def initDecodeState : DecodeState := ⟨[], [], 0, [], true⟩

/-- Embedding of `process_frame` (exrtool.cpp lines 70-194): the decode
loop over the frame group's files followed by the merge-check and save
steps. -/
def processFrame (codec : Codec) (saveOk : List Char → Bool) (tmpl : List Char)
    (frame : Nat) (files : List RunFile) : FrameResult :=
  finishFrame saveOk tmpl frame (decodeLoop codec files initDecodeState)

/-! Grouping (`exrtool_process`, lines 211-229) and `exrtool_poll`. -/

/-- One step of `frames[frame].push_back(rf)` on the `std::map` ordered by
`uint32_t` key (exrtool.cpp line 225), modelled on the key-sorted
association list: append to the group of an existing equal key, otherwise
insert a fresh singleton group at the ordered position. -/
def insertFrameFile (m : List (Nat × List RunFile)) (frame : Nat) (f : RunFile) :
    List (Nat × List RunFile) :=
  match m with
  | [] => [(frame, [f])]
  | (k, gs) :: rest =>
    if frame < k then (frame, [f]) :: (k, gs) :: rest
    else if frame = k then (k, gs ++ [f]) :: rest
    else (k, gs) :: insertFrameFile rest frame f

/-- The grouping loop of `exrtool_process` (exrtool.cpp lines 214-229):
bucket the submitted files by `strip_frame` of their name into the
key-ordered map, then flatten `map.begin()..map.end()` (ascending key
order) into `run->frames`. -/
def groupFrames (inputs : List RunFile) : List (Nat × List RunFile) :=
  inputs.foldl (fun m f => insertFrameFile m (strip_frame f.name.data) f) []

/-- The `max` field written by `exrtool_poll` (exrtool.cpp line 264):
`run->input.num_files + run->frames.size()`, both fixed when the run is
created. -/
def pollMax (inputs : List RunFile) : Nat :=
  inputs.length + (groupFrames inputs).length

/-! The worker loop (`exrtool_process` lines 243-255, `process_next_frame`). -/

/-- Observable trace of one worker thread: the frame-group indices it
claimed in bounds and processed (with each group's `process_frame`
result), the indices after whose processing the loop-body progress
notification fired (exrtool.cpp lines 246-248), the number of
`a_threads_done` increments (line 250) and of post-loop notifications
(lines 251-253). -/
structure WorkerTrace where
  processed : List (Nat × FrameResult)
  bodyNotifies : List Nat
  threadsDone : Nat
  exitNotifies : Nat
deriving DecidableEq, Repr

/-- The worker lambda (exrtool.cpp lines 244-254) for a run configured
with a single worker thread, in which the shared cursor
`a_frames_started` is claimed by this thread alone and so walks the frame
array in order.  `process_next_frame` (lines 196-203) claims the next
index; out of bounds it returns `false`, otherwise it returns
`process_frame`'s success flag.  The loop `while (process_next_frame(...))`
therefore continues — and fires the body notification — only after a
successful frame, and exits after an out-of-bounds claim or a failed
frame, incrementing `a_threads_done` and notifying once more. -/
def workerRun (codec : Codec) (saveOk : List Char → Bool) (tmpl : List Char) :
    Nat → List (Nat × List RunFile) → WorkerTrace
  | _, [] => { processed := [], bodyNotifies := [], threadsDone := 1, exitNotifies := 1 }
  | ix, (frame, files) :: rest =>
    let r := processFrame codec saveOk tmpl frame files
    if r.ok then
      let t := workerRun codec saveOk tmpl (ix + 1) rest
      { processed := (ix, r) :: t.processed,
        bodyNotifies := ix :: t.bodyNotifies,
        threadsDone := t.threadsDone,
        exitNotifies := t.exitNotifies }
    else
      { processed := [(ix, r)], bodyNotifies := [], threadsDone := 1, exitNotifies := 1 }

/-! Specification-side definitions, used to state the claims against the
embedding above. -/

/-- Whether a decode outcome is a success. -/
def DecodeResult.isOk : DecodeResult → Bool
  | .ok _ _ => true
  | _ => false

/-- The decoded channel list of a successful outcome (empty on failure). -/
def DecodeResult.chans : DecodeResult → List Chan
  | .ok _ cs => cs
  | _ => []

/-- Channels a file contributes to the merge: its decoded channels whose
names are in its requested set, in header order. -/
def suppliedChans (codec : Codec) (f : RunFile) : List Chan :=
  (codec f.name).chans.filter (fun c => f.use_channel c.name)

/-- All channels contributed by a frame group's files, in file order then
header order. -/
def groupSupplied (codec : Codec) (files : List RunFile) : List Chan :=
  (files.map (suppliedChans codec)).flatten

/-- Association lookup on the frame-group list: the file list of the group
with the given frame number, if present. -/
def lookupGroups (m : List (Nat × List RunFile)) (j : Nat) : Option (List RunFile) :=
  (m.find? (fun p => p.1 == j)).map Prod.snd

/-- Number of files of a group that decode successfully before the loop
stops (all of them when no decode fails). -/
def successfulDecodes (codec : Codec) : List RunFile → Nat
  | [] => 0
  | f :: fs =>
    match codec f.name with
    | .ok _ _ => successfulDecodes codec fs + 1
    | _ => 0

/-- Number of decode attempts the claim counts for a group: each
successfully decoded file plus, when a decode fails, the one failing
attempt (later files are skipped, not attempted). -/
def decodeAttempts (codec : Codec) : List RunFile → Nat
  | [] => 0
  | f :: fs =>
    match codec f.name with
    | .ok _ _ => decodeAttempts codec fs + 1
    | _ => 1

/-- Number of save attempts a frame task made (one or zero). -/
def saveAttempts (r : FrameResult) : Nat :=
  if r.saved.isSome then 1 else 0

/-- Output path computation as the specification words it: the rightmost
hash run is replaced by the frame number zero-padded exactly to the run's
length, with no buffer limit; kept separate from `outputName` (the code's
behaviour) so the two can be compared. -/
def outputNameSpec (tmpl : List Char) (frame : Nat) : List Char :=
  match findLastHash tmpl with
  | some e =>
    if frame ≠ NO_FRAME then
      let b := hashRunBegin tmpl e
      tmpl.take b ++ padded (e - b + 1) frame ++ tmpl.drop (e + 1)
    else tmpl
  | none => tmpl

/-! Concrete instances used by counterexamples, code-bug evaluations and
witnesses. -/

/-- Codec for the scheduler runs: `a.0001.exr` fails its version parse,
every other path decodes to a single channel `R`. -/
def cexCodec : Codec := fun s =>
  if s = "a.0001.exr" then .versionError
  else .ok 5 [⟨"R", 1, 9⟩]

/-- A file whose decode fails under `cexCodec`. -/
def fileA : RunFile := ⟨"a.0001.exr", ["R"]⟩

/-- A file whose decode succeeds under `cexCodec`. -/
def fileB : RunFile := ⟨"b.0002.exr", ["R"]⟩

/-- A save oracle under which every save succeeds. -/
def saveAll : List Char → Bool := fun _ => true

/-- Codec for the merge example: `a.exr` supplies channels `R`,`G`;
every other path supplies `B`,`R` with a different pixel type and plane
for `R`. -/
def mergeExCodec : Codec := fun s =>
  if s = "a.exr" then .ok 1 [⟨"R", 1, 10⟩, ⟨"G", 1, 11⟩]
  else .ok 2 [⟨"B", 1, 20⟩, ⟨"R", 2, 21⟩]

/-- First merge-example file: requests channels `R` and `G`. -/
def fileRG : RunFile := ⟨"a.exr", ["R", "G"]⟩

/-- Second merge-example file: requests channels `B` and `R`. -/
def fileBR : RunFile := ⟨"b.exr", ["B", "R"]⟩

/-- Codec under which every file decodes to one channel `R`. -/
def allOkCodec : Codec := fun _ => .ok 3 [⟨"R", 1, 7⟩]

/-- A file requesting no channels at all. -/
def fileNoReqOne : RunFile := ⟨"one.exr", []⟩

/-- A second file requesting no channels at all. -/
def fileNoReqTwo : RunFile := ⟨"two.exr", []⟩

/-! Helper lemmas about `strip_frame`. -/

/-- A list of which every element satisfies `p` drops to the empty list. -/
theorem dropWhile_all {α : Type} (p : α → Bool) :
    ∀ l : List α, (∀ c ∈ l, p c = true) → l.dropWhile p = []
  | [], _ => rfl
  | c :: l, h => by
    rw [List.dropWhile_cons_of_pos (h c (List.mem_cons_self c l))]
    exact dropWhile_all p l (fun d hd => h d (List.mem_cons_of_mem c hd))

/-- Dropping non-digits stops at the reversed digit run. -/
theorem dropWhile_nondigit_stop (run l₂ : List Char) (hrun : run ≠ [])
    (hrd : ∀ c ∈ run, c.isDigit = true) :
    (run.reverse ++ l₂).dropWhile (fun c => !c.isDigit) = run.reverse ++ l₂ := by
  cases h : run.reverse with
  | nil => exact absurd (List.reverse_eq_nil_iff.mp h) hrun
  | cons d t =>
    have hd : d.isDigit = true := by
      have hm : d ∈ run.reverse := by rw [h]; exact List.mem_cons_self d t
      exact hrd d (List.mem_reverse.mp hm)
    rw [List.cons_append, List.dropWhile_cons_of_neg (by simp [hd])]

/-- Value of `strip_frame` on a filename decomposed as prefix, rightmost
digit run and digit-free suffix: the run is parsed with `atoi` and cast to
`uint32_t`. -/
theorem strip_frame_decomp (a run b : List Char) (hrun : run ≠ [])
    (hrd : ∀ c ∈ run, c.isDigit = true) (hb : ∀ c ∈ b, c.isDigit = false)
    (ha : a = [] ∨ ∃ a0 c, a = a0 ++ [c] ∧ c.isDigit = false) :
    strip_frame (a ++ run ++ b) = atoiU32 run := by
  have h2 : (b.reverse ++ (run.reverse ++ a.reverse)).dropWhile (fun c => !c.isDigit)
      = run.reverse ++ a.reverse := by
    rw [List.dropWhile_append_of_pos
      (fun c hc => by simp [hb c (List.mem_reverse.mp hc)])]
    exact dropWhile_nondigit_stop run a.reverse hrun hrd
  have h3 : (run.reverse ++ a.reverse).takeWhile (fun c => c.isDigit) = run.reverse := by
    rw [List.takeWhile_append_of_pos (fun c hc => hrd c (List.mem_reverse.mp hc))]
    rcases ha with rfl | ⟨a0, c, rfl, hc⟩
    · simp
    · simp [List.takeWhile_cons_of_neg, hc]
  have hfr : frameRun (a ++ run ++ b) = run := by
    unfold frameRun
    rw [show (a ++ run ++ b).reverse = b.reverse ++ (run.reverse ++ a.reverse) by simp,
        h2, h3, List.reverse_reverse]
  rw [List.append_assoc] at hfr
  simp [strip_frame, hfr, hrun]

/-- A filename with no digit at all yields the sentinel. -/
theorem strip_frame_all_nondigit (s : List Char)
    (h : ∀ c ∈ s, c.isDigit = false) : strip_frame s = NO_FRAME := by
  have h2 : s.reverse.dropWhile (fun c => !c.isDigit) = [] :=
    dropWhile_all _ s.reverse (fun c hc => by simp [h c (List.mem_reverse.mp hc)])
  simp [strip_frame, frameRun, h2]

/-- Every value of `strip_frame` is below `2^32`. -/
theorem strip_frame_lt (s : List Char) : strip_frame s < 2 ^ 32 := by
  unfold strip_frame
  split
  · simp [NO_FRAME]
  · exact Nat.mod_lt _ (by norm_num)

/-! Claim C7 (frame-number extraction). -/

/-- C7, counterexample to the claim as stated: the filename
`b4294967295.exr` contains digits — its rightmost digit run is
`4294967295` — yet `strip_frame` returns the `no-frame` sentinel, because
the run's `atoi` value collides with the `~0u` bit pattern.  The claim's
clause that the sentinel is returned *only* when no digit is found is
therefore false. -/
theorem C7_counterexample :
    ("b4294967295.exr".data.any (fun c => c.isDigit)) = true
    ∧ strip_frame "b4294967295.exr".data = NO_FRAME := by
  constructor
  · decide
  · decide

/-- C7, amended: extraction scans from the end, skips the trailing
non-digit run, and parses the maximal digit run immediately preceding it
with `atoi` cast to `uint32_t` — i.e. the run's value clamped to
`LONG_MAX` and reduced modulo `2^32`; the sentinel is returned when no
digit is found (and also, by value collision, when the reduced value is
`2^32 - 1`).  The three examples of the claim hold. -/
theorem C7_amended :
    (∀ a run b : List Char, run ≠ [] → (∀ c ∈ run, c.isDigit = true) →
      (∀ c ∈ b, c.isDigit = false) →
      (a = [] ∨ ∃ a0 c, a = a0 ++ [c] ∧ c.isDigit = false) →
      strip_frame (a ++ run ++ b) = atoiU32 run)
    ∧ (∀ s, (∀ c ∈ s, c.isDigit = false) → strip_frame s = NO_FRAME)
    ∧ strip_frame "beauty.1023.exr".data = 1023
    ∧ strip_frame "beauty.exr".data = NO_FRAME
    ∧ strip_frame "a7b22.exr".data = 22 :=
  ⟨strip_frame_decomp, strip_frame_all_nondigit, by decide, by decide, by decide⟩

/-- C7, witness: the amended theorem applied to the decomposition of
`beauty.1023.exr`. -/
theorem C7_witness :
    strip_frame ("beauty.".data ++ "1023".data ++ ".exr".data) = atoiU32 "1023".data :=
  C7_amended.1 "beauty.".data "1023".data ".exr".data (by decide) (by decide)
    (by decide) (Or.inr ⟨"beauty".data, '.', by decide, by decide⟩)

/-! Claim C4 (the no-frame sentinel). -/

/-- C4, counterexample: the sentinel is the reused integer bit pattern
`~0u`, and the filename `a.4294967295.exr`, whose rightmost digit run is
all digits and encodes the real frame number `4294967295`, maps to exactly
the sentinel value. -/
theorem C4_counterexample :
    (∀ c ∈ "4294967295".data, c.isDigit = true)
    ∧ digitsToNat "4294967295".data = 4294967295
    ∧ strip_frame "a.4294967295.exr".data = NO_FRAME := by
  refine ⟨by decide, by decide, by decide⟩

/-- C4, amended: the sentinel `2^32 - 1` is distinct from the extraction
result of every filename whose rightmost digit run has an `atoi`-reduced
value other than `2^32 - 1`; a run reducing to `2^32 - 1` (such as
`4294967295`) collides with it. -/
theorem C4_amended (a run b : List Char) (hrun : run ≠ [])
    (hrd : ∀ c ∈ run, c.isDigit = true) (hb : ∀ c ∈ b, c.isDigit = false)
    (ha : a = [] ∨ ∃ a0 c, a = a0 ++ [c] ∧ c.isDigit = false)
    (hv : atoiU32 run ≠ NO_FRAME) :
    strip_frame (a ++ run ++ b) ≠ NO_FRAME := by
  rw [strip_frame_decomp a run b hrun hrd hb ha]
  exact hv

/-- C4, witness: the amended theorem applied to `shot.0042.exr`. -/
theorem C4_witness :
    strip_frame ("shot.".data ++ "0042".data ++ ".exr".data) ≠ NO_FRAME :=
  C4_amended "shot.".data "0042".data ".exr".data (by decide) (by decide)
    (by decide) (Or.inr ⟨"shot".data, '.', by decide, by decide⟩) (by decide)

/-! Helper lemmas about the channel merge. -/

/-- Characters with equal code points are equal. -/
theorem char_toNat_inj {x y : Char} (h : x.toNat = y.toNat) : x = y := by
  apply Char.ext
  apply UInt32.ext
  simpa [Char.toNat] using h

/-- The character-list order is transitive. -/
theorem ltChars_trans : ∀ a b c : List Char,
    ltChars a b = true → ltChars b c = true → ltChars a c = true := by
  intro a
  induction a with
  | nil =>
    intro b c hab hbc
    cases b with
    | nil => simp [ltChars] at hab
    | cons y ys =>
      cases c with
      | nil => simp [ltChars] at hbc
      | cons z zs => simp [ltChars]
  | cons x xs ih =>
    intro b c hab hbc
    cases b with
    | nil => simp [ltChars] at hab
    | cons y ys =>
      cases c with
      | nil => simp [ltChars] at hbc
      | cons z zs =>
        simp only [ltChars] at hab hbc ⊢
        by_cases h1 : x.toNat < y.toNat <;> by_cases h2 : y.toNat < z.toNat <;>
          by_cases h3 : x.toNat < z.toNat <;>
          by_cases h1' : y.toNat < x.toNat <;> by_cases h2' : z.toNat < y.toNat <;>
          by_cases h3' : z.toNat < x.toNat <;>
          simp [h1, h2, h3, h1', h2', h3'] at hab hbc ⊢ <;>
          first
            | omega
            | exact ih ys zs hab hbc

/-- Two character lists neither of which is below the other are equal. -/
theorem ltChars_eq_of_not : ∀ a b : List Char,
    ltChars a b = false → ltChars b a = false → a = b := by
  intro a
  induction a with
  | nil =>
    intro b h1 _
    cases b with
    | nil => rfl
    | cons y ys => simp [ltChars] at h1
  | cons x xs ih =>
    intro b h1 h2
    cases b with
    | nil => simp [ltChars] at h2
    | cons y ys =>
      simp only [ltChars] at h1 h2
      by_cases hxy : x.toNat < y.toNat
      · simp [hxy] at h1
      · by_cases hyx : y.toNat < x.toNat
        · simp [hyx, hxy] at h2
        · have hx : x = y := char_toNat_inj (by omega)
          subst hx
          simp [hxy, hyx] at h1 h2
          rw [ih ys h1 h2]

/-- Two strings neither of which is below the other are equal. -/
theorem strLt_eq_of_not {a b : String} (h1 : strLt a b = false)
    (h2 : strLt b a = false) : a = b := by
  cases a with
  | mk da =>
    cases b with
    | mk db =>
      have := ltChars_eq_of_not da db h1 h2
      rw [this]

/-- The string order is transitive. -/
theorem strLt_trans {a b c : String} (h1 : strLt a b = true)
    (h2 : strLt b c = true) : strLt a c = true :=
  ltChars_trans a.data b.data c.data h1 h2

/-- Members of the merge-step result are the inserted channel or old ones. -/
theorem mem_insertChannel (c x : Chan) :
    ∀ chs, x ∈ insertChannel chs c → x = c ∨ x ∈ chs := by
  intro chs
  induction chs with
  | nil => simp [insertChannel]
  | cons y ys ih =>
    simp only [insertChannel]
    split
    · intro h
      rcases List.mem_cons.mp h with h | h
      · exact Or.inl h
      · exact Or.inr h
    · split
      · intro h
        rcases List.mem_cons.mp h with h | h
        · exact Or.inl h
        · exact Or.inr (List.mem_cons_of_mem y h)
      · intro h
        rcases List.mem_cons.mp h with h | h
        · exact Or.inr (h ▸ List.mem_cons_self y ys)
        · rcases ih h with h | h
          · exact Or.inl h
          · exact Or.inr (List.mem_cons_of_mem y h)

/-- The merge step keeps the channel vector strictly sorted by name. -/
theorem pairwise_insertChannel (c : Chan) :
    ∀ chs, chs.Pairwise (fun a b => strLt a.name b.name = true) →
    (insertChannel chs c).Pairwise (fun a b => strLt a.name b.name = true) := by
  intro chs
  induction chs with
  | nil => intro _; simp [insertChannel]
  | cons y ys ih =>
    intro hp
    rw [List.pairwise_cons] at hp
    obtain ⟨hy, hys⟩ := hp
    simp only [insertChannel]
    split
    case isTrue hlt =>
      refine List.pairwise_cons.mpr ⟨?_, List.pairwise_cons.mpr ⟨hy, hys⟩⟩
      intro z hz
      rcases List.mem_cons.mp hz with rfl | hz
      · exact hlt
      · exact strLt_trans hlt (hy z hz)
    case isFalse hnlt =>
      split
      case isTrue heq =>
        refine List.pairwise_cons.mpr ⟨?_, hys⟩
        intro z hz
        exact heq ▸ hy z hz
      case isFalse hne =>
        refine List.pairwise_cons.mpr ⟨?_, ih hys⟩
        intro z hz
        rcases mem_insertChannel c z ys hz with rfl | hz
        · cases hcase : strLt y.name z.name with
          | true => rfl
          | false =>
            have h1 : strLt z.name y.name = false := by simpa using hnlt
            exact absurd (strLt_eq_of_not hcase h1) hne
        · exact hy z hz

/-- Name lookup after a merge step: the inserted channel shadows any
previous entry of the same name and leaves other names unchanged. -/
theorem find?_insertChannel (c : Chan) (n : String) :
    ∀ chs, (insertChannel chs c).find? (fun d => d.name == n)
      = if c.name = n then some c else chs.find? (fun d => d.name == n) := by
  intro chs
  induction chs with
  | nil =>
    simp only [insertChannel]
    by_cases h : c.name = n <;> simp [h]
  | cons y ys ih =>
    simp only [insertChannel]
    split
    case isTrue hlt =>
      by_cases h : c.name = n
      · rw [List.find?_cons_of_pos _ (by simpa using h), if_pos h]
      · rw [List.find?_cons_of_neg _ (by simpa using h), if_neg h]
    case isFalse hnlt =>
      split
      case isTrue heq =>
        by_cases h : c.name = n
        · rw [List.find?_cons_of_pos _ (by simpa using h), if_pos h]
        · rw [List.find?_cons_of_neg _ (by simpa using h), if_neg h,
            List.find?_cons_of_neg _ (by simp [heq, h])]
      case isFalse hne =>
        by_cases hy : y.name = n
        · have hcn : ¬ c.name = n := fun hc => hne (by rw [hy, hc])
          rw [List.find?_cons_of_pos _ (by simpa using hy), if_neg hcn,
            List.find?_cons_of_pos _ (by simpa using hy)]
        · rw [List.find?_cons_of_neg _ (by simpa using hy), ih]
          by_cases h : c.name = n
          · rw [if_pos h, if_pos h]
          · rw [if_neg h, if_neg h, List.find?_cons_of_neg _ (by simpa using hy)]

/-- Members of a per-file merge are old channels or decoded ones. -/
theorem mem_mergeFile (f : RunFile) (x : Chan) :
    ∀ cs acc, x ∈ mergeFile f acc cs → x ∈ acc ∨ x ∈ cs := by
  intro cs
  induction cs with
  | nil => intro acc h; exact Or.inl h
  | cons c cs ih =>
    intro acc h
    simp only [mergeFile, List.foldl_cons] at h
    by_cases hq : f.use_channel c.name
    · rw [if_pos hq] at h
      rcases ih (insertChannel acc c) h with h | h
      · rcases mem_insertChannel c x acc h with rfl | h
        · exact Or.inr (List.mem_cons_self x cs)
        · exact Or.inl h
      · exact Or.inr (List.mem_cons_of_mem c h)
    · rw [if_neg hq] at h
      rcases ih acc h with h | h
      · exact Or.inl h
      · exact Or.inr (List.mem_cons_of_mem c h)

/-- The per-file merge preserves strict name sortedness. -/
theorem pairwise_mergeFile (f : RunFile) :
    ∀ cs acc, acc.Pairwise (fun a b => strLt a.name b.name = true) →
    (mergeFile f acc cs).Pairwise (fun a b => strLt a.name b.name = true) := by
  intro cs
  induction cs with
  | nil => intro acc h; exact h
  | cons c cs ih =>
    intro acc h
    by_cases hq : f.use_channel c.name
    · simpa [mergeFile, hq] using ih (insertChannel acc c) (pairwise_insertChannel c acc h)
    · simpa [mergeFile, hq] using ih acc h

/-- Name lookup after a per-file merge: the last requested occurrence in
the file's decoded channel list wins, else the previous entry stands. -/
theorem find?_mergeFile (f : RunFile) (n : String) :
    ∀ cs acc, (mergeFile f acc cs).find? (fun d => d.name == n)
      = (((cs.filter (fun c => f.use_channel c.name)).reverse.find?
            (fun d => d.name == n)).or
          (acc.find? (fun d => d.name == n))) := by
  intro cs
  induction cs with
  | nil => intro acc; simp [mergeFile]
  | cons c cs ih =>
    intro acc
    by_cases hq : f.use_channel c.name
    · have hstep : mergeFile f acc (c :: cs) = mergeFile f (insertChannel acc c) cs := by
        simp [mergeFile, hq]
      rw [hstep, ih (insertChannel acc c), find?_insertChannel,
        List.filter_cons_of_pos (by simpa using hq), List.reverse_cons,
        List.find?_append, Option.or_assoc]
      congr 1
      by_cases h : c.name = n
      · simp [h]
      · simp [h]
    · have hstep : mergeFile f acc (c :: cs) = mergeFile f acc cs := by
        simp [mergeFile, hq]
      rw [hstep, ih acc, List.filter_cons_of_neg (by simpa using hq)]

/-! Helper lemmas about the decode loop. -/

/-- When every file of the group decodes, the loop's channel vector is the
fold of the per-file merges. -/
theorem decodeLoop_chs (codec : Codec) :
    ∀ fs st, (∀ f ∈ fs, (codec f.name).isOk = true) →
    (decodeLoop codec fs st).chs
      = fs.foldl (fun acc f => mergeFile f acc (codec f.name).chans) st.chs := by
  intro fs
  induction fs with
  | nil => intro st _; rfl
  | cons f fs ih =>
    intro st hok
    have h := hok f (List.mem_cons_self f fs)
    cases hc : codec f.name with
    | versionError => rw [hc] at h; exact absurd h (by simp [DecodeResult.isOk])
    | headerError => rw [hc] at h; exact absurd h (by simp [DecodeResult.isOk])
    | imageError => rw [hc] at h; exact absurd h (by simp [DecodeResult.isOk])
    | ok meta cs =>
      simp only [decodeLoop, hc, List.foldl_cons]
      rw [ih _ (fun g hg => hok g (List.mem_cons_of_mem f hg))]
      simp [DecodeResult.chans, hc]

/-- The fold of per-file merges preserves strict name sortedness. -/
theorem pairwise_mergeFold (codec : Codec) :
    ∀ (files : List RunFile) (acc : List Chan),
    acc.Pairwise (fun a b => strLt a.name b.name = true) →
    (files.foldl (fun acc f => mergeFile f acc (codec f.name).chans) acc).Pairwise
      (fun a b => strLt a.name b.name = true) := by
  intro files
  induction files with
  | nil => intro acc h; exact h
  | cons f fs ih =>
    intro acc h
    exact ih (mergeFile f acc (codec f.name).chans)
      (pairwise_mergeFile f (codec f.name).chans acc h)

/-- Name lookup in the fold of per-file merges: the last supplied
occurrence across the group wins, else the accumulator's entry stands. -/
theorem find?_mergeFold (codec : Codec) (n : String) :
    ∀ (files : List RunFile) (acc : List Chan),
    ((files.foldl (fun acc f => mergeFile f acc (codec f.name).chans) acc).find?
        (fun d => d.name == n))
      = (((groupSupplied codec files).reverse.find? (fun d => d.name == n)).or
          (acc.find? (fun d => d.name == n))) := by
  intro files
  induction files with
  | nil => intro acc; simp [groupSupplied]
  | cons f fs ih =>
    intro acc
    rw [List.foldl_cons, ih (mergeFile f acc (codec f.name).chans),
      find?_mergeFile]
    have hgs : groupSupplied codec (f :: fs)
        = suppliedChans codec f ++ groupSupplied codec fs := by
      simp [groupSupplied]
    rw [hgs, List.reverse_append, List.find?_append, Option.or_assoc]
    rfl

/-- The decode loop only appends to the header list. -/
theorem decodeLoop_metas_ext (codec : Codec) :
    ∀ fs st, ∃ t, (decodeLoop codec fs st).metas = st.metas ++ t := by
  intro fs
  induction fs with
  | nil => intro st; exact ⟨[], by simp [decodeLoop]⟩
  | cons f fs ih =>
    intro st
    cases hc : codec f.name with
    | versionError => exact ⟨[], by simp [decodeLoop, hc]⟩
    | headerError => exact ⟨[], by simp [decodeLoop, hc]⟩
    | imageError => exact ⟨[], by simp [decodeLoop, hc]⟩
    | ok meta cs =>
      obtain ⟨t, ht⟩ :=
        ih ⟨mergeFile f st.chs cs, st.metas ++ [meta], st.progress + 1,
          st.errors, st.ok⟩
      exact ⟨meta :: t, by simp only [decodeLoop, hc]; rw [ht]; simp⟩

/-- The decode loop increments the progress counter once per successfully
decoded file. -/
theorem decodeLoop_progress (codec : Codec) :
    ∀ fs st, (decodeLoop codec fs st).progress
      = st.progress + successfulDecodes codec fs := by
  intro fs
  induction fs with
  | nil => intro st; simp [decodeLoop, successfulDecodes]
  | cons f fs ih =>
    intro st
    cases hc : codec f.name with
    | versionError => simp [decodeLoop, hc, successfulDecodes]
    | headerError => simp [decodeLoop, hc, successfulDecodes]
    | imageError => simp [decodeLoop, hc, successfulDecodes]
    | ok meta cs =>
      simp only [decodeLoop, hc, successfulDecodes]
      rw [ih]
      simp
      omega

/-- If the loop state has a header for every nonempty channel vector, so
does the loop's result. -/
theorem decodeLoop_inv_metas (codec : Codec) :
    ∀ fs st, (st.chs ≠ [] → st.metas ≠ []) →
    ((decodeLoop codec fs st).chs ≠ [] → (decodeLoop codec fs st).metas ≠ []) := by
  intro fs
  induction fs with
  | nil => intro st h; exact h
  | cons f fs ih =>
    intro st h
    cases hc : codec f.name with
    | versionError => simpa [decodeLoop, hc] using h
    | headerError => simpa [decodeLoop, hc] using h
    | imageError => simpa [decodeLoop, hc] using h
    | ok meta cs =>
      simp only [decodeLoop, hc]
      exact ih _ (fun _ => by simp)

/-- When every file decodes, the loop records no error and keeps `ok`. -/
theorem decodeLoop_errors_ok (codec : Codec) :
    ∀ fs st, (∀ f ∈ fs, (codec f.name).isOk = true) →
    (decodeLoop codec fs st).errors = st.errors
      ∧ (decodeLoop codec fs st).ok = st.ok := by
  intro fs
  induction fs with
  | nil => intro st _; exact ⟨rfl, rfl⟩
  | cons f fs ih =>
    intro st hok
    have h := hok f (List.mem_cons_self f fs)
    cases hc : codec f.name with
    | versionError => rw [hc] at h; exact absurd h (by simp [DecodeResult.isOk])
    | headerError => rw [hc] at h; exact absurd h (by simp [DecodeResult.isOk])
    | imageError => rw [hc] at h; exact absurd h (by simp [DecodeResult.isOk])
    | ok meta cs =>
      simp only [decodeLoop, hc]
      exact ih _ (fun g hg => hok g (List.mem_cons_of_mem f hg))

/-- Every merged channel comes from the initial state or from some file's
decoded channel list. -/
theorem decodeLoop_mem_chs (codec : Codec) (x : Chan) :
    ∀ fs st, x ∈ (decodeLoop codec fs st).chs →
    x ∈ st.chs ∨ ∃ f ∈ fs, x ∈ (codec f.name).chans := by
  intro fs
  induction fs with
  | nil => intro st h; exact Or.inl h
  | cons f fs ih =>
    intro st h
    cases hc : codec f.name with
    | versionError =>
      rw [decodeLoop, hc] at h; exact Or.inl h
    | headerError =>
      rw [decodeLoop, hc] at h; exact Or.inl h
    | imageError =>
      rw [decodeLoop, hc] at h; exact Or.inl h
    | ok meta cs =>
      rw [decodeLoop, hc] at h
      rcases ih _ h with h | ⟨g, hg, hx⟩
      · rcases mem_mergeFile f x cs st.chs h with h | h
        · exact Or.inl h
        · exact Or.inr ⟨f, List.mem_cons_self f fs, by simp [DecodeResult.chans, hc, h]⟩
      · exact Or.inr ⟨g, List.mem_cons_of_mem f hg, hx⟩

/-! Claim C5 (merged channel set: sorted, deduplicated, last write wins). -/

/-- C5: for a frame group whose files all decode, the merged channel
vector is keyed by strictly sorted (hence unique) names, and the entry
for any name is the last channel of that name supplied across the group's
files in scan order — so a later file's plane and pixel type replace an
earlier one's.  On the claim's example, files with channel sets `R`,`G`
and `B`,`R` merge to exactly `B`,`G`,`R`, with `R` taken from the later
file. -/
theorem C5_holds :
    (∀ (codec : Codec) (files : List RunFile) (n : String),
      (∀ f ∈ files, (codec f.name).isOk = true) →
      (((decodeLoop codec files initDecodeState).chs.map Chan.name).Pairwise
          (fun a b => strLt a b = true)
        ∧ (decodeLoop codec files initDecodeState).chs.find? (fun d => d.name == n)
            = (groupSupplied codec files).reverse.find? (fun d => d.name == n)))
    ∧ ((decodeLoop mergeExCodec [fileRG, fileBR] initDecodeState).chs.map Chan.name
          = ["B", "G", "R"]
        ∧ (decodeLoop mergeExCodec [fileRG, fileBR] initDecodeState).chs.find?
            (fun d => d.name == "R") = some ⟨"R", 2, 21⟩) := by
  constructor
  · intro codec files n hok
    rw [decodeLoop_chs codec files initDecodeState hok]
    constructor
    · rw [List.pairwise_map]
      exact pairwise_mergeFold codec files initDecodeState.chs (by simp [initDecodeState])
    · rw [find?_mergeFold codec n files initDecodeState.chs]
      simp [initDecodeState]
  · constructor
    · decide
    · decide

/-- C5, witness: the sortedness and last-write-wins statements applied to
the concrete two-file merge example. -/
theorem C5_witness :
    ((decodeLoop mergeExCodec [fileRG, fileBR] initDecodeState).chs.map
        Chan.name).Pairwise (fun a b => strLt a b = true)
    ∧ (decodeLoop mergeExCodec [fileRG, fileBR] initDecodeState).chs.find?
          (fun d => d.name == "R")
        = (groupSupplied mergeExCodec [fileRG, fileBR]).reverse.find?
            (fun d => d.name == "R") :=
  C5_holds.1 mergeExCodec [fileRG, fileBR] "R" (by decide)

/-! Helper lemmas about the tail of the per-frame task. -/

/-- The composite channel table of the task result is the loop's merged
vector, on every path. -/
theorem finishFrame_channels (saveOk : List Char → Bool) (tmpl : List Char)
    (frame : Nat) (st : DecodeState) :
    (finishFrame saveOk tmpl frame st).channels = st.chs := by
  unfold finishFrame
  split
  · split
    · rfl
    · split
      · rfl
      · rfl
  · rfl

/-- The task increments the progress counter exactly once after the decode
loop, on every path. -/
theorem finishFrame_progress (saveOk : List Char → Bool) (tmpl : List Char)
    (frame : Nat) (st : DecodeState) :
    (finishFrame saveOk tmpl frame st).progress = st.progress + 1 := by
  unfold finishFrame
  split
  · split
    · rfl
    · split
      · rfl
      · rfl
  · rfl

/-- The `headers[0]` access of the save step is in bounds whenever the
loop state guarantees a header behind every nonempty channel vector. -/
theorem finishFrame_oob (saveOk : List Char → Bool) (tmpl : List Char)
    (frame : Nat) (st : DecodeState) (hinv : st.chs ≠ [] → st.metas ≠ []) :
    (finishFrame saveOk tmpl frame st).oob = false := by
  unfold finishFrame
  split
  case isTrue hcond =>
    have hchs : st.chs ≠ [] := by
      simp only [Bool.and_eq_true] at hcond
      simpa using hcond.2
    split
    case h_1 heq => exact absurd heq (hinv hchs)
    case h_2 m rest heq =>
      split
      · rfl
      · rfl
  case isFalse => rfl

/-- When the task result records a save call, the loop succeeded and the
saved composite takes its non-channel header data from the first decoded
header and its channel table from the merged vector. -/
theorem finishFrame_saved (saveOk : List Char → Bool) (tmpl : List Char)
    (frame : Nat) (st : DecodeState) (m : Nat) (chs : List Chan) (p : List Char)
    (h : (finishFrame saveOk tmpl frame st).saved = some (m, chs, p)) :
    st.ok = true ∧ chs = st.chs ∧ ∃ rest, st.metas = m :: rest := by
  unfold finishFrame at h
  split at h
  case isTrue hcond =>
    have hok : st.ok = true := by
      simp only [Bool.and_eq_true] at hcond
      exact hcond.1
    split at h
    case h_1 heq => simp at h
    case h_2 m0 rest heq =>
      split at h
      · obtain ⟨h1, h2, h3⟩ : m0 = m ∧ st.chs = chs ∧ outputName tmpl frame = p := by
          simpa using h
        exact ⟨hok, h2.symm, ⟨rest, by rw [heq, h1]⟩⟩
      · obtain ⟨h1, h2, h3⟩ : m0 = m ∧ st.chs = chs ∧ outputName tmpl frame = p := by
          simpa using h
        exact ⟨hok, h2.symm, ⟨rest, by rw [heq, h1]⟩⟩
  case isFalse => simp at h

/-- When the loop ends clean, the `no channels` error is recorded if and
only if the merged table is empty. -/
theorem finishFrame_noChannels (saveOk : List Char → Bool) (tmpl : List Char)
    (frame : Nat) (st : DecodeState) (hok : st.ok = true)
    (herr : st.errors = []) :
    (Err.noChannels frame ∈ (finishFrame saveOk tmpl frame st).errors
      ↔ st.chs = []) := by
  unfold finishFrame
  cases hc : st.chs with
  | nil =>
    simp [hok, hc, herr]
  | cons c cs =>
    rw [if_pos (by simp [hok, hc])]
    split
    case h_1 heq => simp [herr, hc]
    case h_2 m0 rest heq =>
      split
      · simp [herr, hc]
      · simp [herr, hc]

/-! Claim C9 (composite header from the group's first file; in-bounds
access). -/

/-- C9: the `headers[0]` access of the save step never goes out of
bounds, and whenever a save is attempted the composite's non-channel
header data is the one decoded from the frame group's first file. -/
theorem C9_holds (codec : Codec) (saveOk : List Char → Bool)
    (tmpl : List Char) (frame : Nat) (files : List RunFile) :
    (processFrame codec saveOk tmpl frame files).oob = false
    ∧ (∀ m chs p,
        (processFrame codec saveOk tmpl frame files).saved = some (m, chs, p) →
        ∃ f fs cs, files = f :: fs ∧ codec f.name = DecodeResult.ok m cs) := by
  constructor
  · exact finishFrame_oob saveOk tmpl frame _
      (decodeLoop_inv_metas codec files initDecodeState (by simp [initDecodeState]))
  · intro m chs p h
    obtain ⟨hok, hchs, rest, hmetas⟩ :=
      finishFrame_saved saveOk tmpl frame _ m chs p h
    cases hf : files with
    | nil =>
      rw [hf] at hmetas
      simp [decodeLoop, initDecodeState] at hmetas
    | cons f fs =>
      rw [hf] at hmetas hok
      cases hc : codec f.name with
      | versionError => rw [decodeLoop, hc] at hok; simp at hok
      | headerError => rw [decodeLoop, hc] at hok; simp at hok
      | imageError => rw [decodeLoop, hc] at hok; simp at hok
      | ok me cs =>
        rw [decodeLoop, hc] at hmetas
        obtain ⟨t, ht⟩ := decodeLoop_metas_ext codec fs
          ⟨mergeFile f initDecodeState.chs cs, initDecodeState.metas ++ [me],
            initDecodeState.progress + 1, initDecodeState.errors, initDecodeState.ok⟩
        rw [ht] at hmetas
        simp [initDecodeState] at hmetas
        obtain ⟨hme, _⟩ := hmetas
        exact ⟨f, fs, cs, rfl, by rw [hc, hme]⟩

/-- C9, witness: a single-file group that reaches the save step under
`cexCodec`; the saved composite carries that file's header data. -/
theorem C9_witness :
    (processFrame cexCodec saveAll "out.#.exr".data 2 [fileB]).oob = false
    ∧ ∃ f fs cs, [fileB] = f :: fs ∧ cexCodec f.name = DecodeResult.ok 5 cs :=
  ⟨(C9_holds cexCodec saveAll "out.#.exr".data 2 [fileB]).1,
    (C9_holds cexCodec saveAll "out.#.exr".data 2 [fileB]).2 5 [⟨"R", 1, 9⟩]
      (outputName "out.#.exr".data 2) (by decide)⟩

/-! Claim C10 (a requested channel absent from all files is silently
ignored). -/

/-- C10: when every file of the group decodes, a requested channel name
that occurs in no decoded file produces no entry in the composite, and
the `no channels` error is recorded exactly when the merged table is
entirely empty. -/
theorem C10_holds (codec : Codec) (saveOk : List Char → Bool)
    (tmpl : List Char) (frame : Nat) (files : List RunFile) (n : String)
    (hok : ∀ f ∈ files, (codec f.name).isOk = true)
    (hmiss : ∀ f ∈ files, ∀ c ∈ (codec f.name).chans, c.name ≠ n) :
    ((processFrame codec saveOk tmpl frame files).channels.find?
        (fun c => c.name == n) = none)
    ∧ (Err.noChannels frame ∈ (processFrame codec saveOk tmpl frame files).errors
        ↔ (processFrame codec saveOk tmpl frame files).channels = []) := by
  obtain ⟨herr, hokSt⟩ := decodeLoop_errors_ok codec files initDecodeState hok
  constructor
  · rw [processFrame, finishFrame_channels]
    rw [List.find?_eq_none]
    intro x hx
    rcases decodeLoop_mem_chs codec x files initDecodeState hx with hx0 | ⟨f, hf, hc⟩
    · simp [initDecodeState] at hx0
    · simpa using hmiss f hf x hc
  · rw [processFrame, finishFrame_channels]
    exact finishFrame_noChannels saveOk tmpl frame _
      (by rw [hokSt]; rfl) (by rw [herr]; rfl)

/-- C10, witness: the channel `Z` is requested of no file and absent from
the decoded channels of the group's only file; the merged table is
nonempty and no `no channels` error is recorded. -/
theorem C10_witness :
    ((processFrame cexCodec saveAll "out.#.exr".data 2 [fileB]).channels.find?
        (fun c => c.name == "Z") = none)
    ∧ (Err.noChannels 2 ∈ (processFrame cexCodec saveAll "out.#.exr".data 2
          [fileB]).errors
        ↔ (processFrame cexCodec saveAll "out.#.exr".data 2 [fileB]).channels = []) :=
  C10_holds cexCodec saveAll "out.#.exr".data 2 [fileB] "Z" (by decide) (by decide)

/-! Claim C3 (progress accounting). -/

/-- C3, counterexample to the claim as stated: a frame group of two files
that both decode but supply no requested channel.  The claim predicts
`2` done units (two decode attempts, no save attempt); the code's counter
advances by `3` — the unconditional end-of-task increment fires although
no save was attempted. -/
theorem C3_counterexample :
    (processFrame allOkCodec saveAll "o.exr".data 1
        [fileNoReqOne, fileNoReqTwo]).progress = 3
    ∧ decodeAttempts allOkCodec [fileNoReqOne, fileNoReqTwo] = 2
    ∧ saveAttempts (processFrame allOkCodec saveAll "o.exr".data 1
        [fileNoReqOne, fileNoReqTwo]) = 0
    ∧ (3 : Nat) ≠ 2 + 0 := by
  refine ⟨by decide, by decide, by decide, by decide⟩

/-- C3, amended: the done-units counter advances once per *successful*
file decode (a failed decode attempt does not advance it) and once more
at the end of every frame-group task, whether or not a save was
attempted; the max-units value equals `num_files + num_frame_groups`,
both fixed at run creation. -/
theorem C3_amended (codec : Codec) (saveOk : List Char → Bool)
    (tmpl : List Char) (frame : Nat) (files : List RunFile)
    (inputs : List RunFile) :
    (processFrame codec saveOk tmpl frame files).progress
        = successfulDecodes codec files + 1
    ∧ pollMax inputs = inputs.length + (groupFrames inputs).length := by
  refine ⟨?_, rfl⟩
  rw [processFrame, finishFrame_progress, decodeLoop_progress]
  simp [initDecodeState]

/-! Claims C1 and C2 (worker loop on frame-group failure). -/

/-- C1, evaluation of the code at the failing input: one worker, two frame
groups; the decode of the first group's only file fails.  The loop
condition `while (process_next_frame(run))` receives `process_frame`'s
success flag, so the worker exits after the failed group: the second
group is never claimed or processed, the error for the first group is
recorded, and the threads-finished counter still reaches the configured
thread count, so the run reports completion. -/
theorem C1_code_bug :
    (groupFrames [fileA, fileB]).length = 2
    ∧ ((workerRun cexCodec saveAll "out.#.exr".data 0
          (groupFrames [fileA, fileB])).processed.map Prod.fst) = [0]
    ∧ ((workerRun cexCodec saveAll "out.#.exr".data 0
          (groupFrames [fileA, fileB])).processed.map
            (fun pr => pr.2.errors)) = [[Err.versionError "a.0001.exr"]]
    ∧ (workerRun cexCodec saveAll "out.#.exr".data 0
          (groupFrames [fileA, fileB])).threadsDone = 1 := by
  refine ⟨by decide, by decide, by decide, by decide⟩

/-- C2, evaluation of the code at the failing input: one worker, one frame
group whose processing fails.  The worker claims in-bounds index `0` and
processes it, but the loop-body progress notification never fires for
that index (the loop exits on the `false` return); the worker then
increments the threads-finished counter and notifies once. -/
theorem C2_code_bug :
    ((workerRun cexCodec saveAll "out.#.exr".data 0
          (groupFrames [fileA])).processed.map Prod.fst) = [0]
    ∧ (workerRun cexCodec saveAll "out.#.exr".data 0
          (groupFrames [fileA])).bodyNotifies = []
    ∧ (workerRun cexCodec saveAll "out.#.exr".data 0
          (groupFrames [fileA])).threadsDone = 1
    ∧ (workerRun cexCodec saveAll "out.#.exr".data 0
          (groupFrames [fileA])).exitNotifies = 1 := by
  refine ⟨by decide, by decide, by decide, by decide⟩

/-! Helper lemmas about the grouping map. -/

/-- Members of a grouping-insert result carry the inserted key or were
already present. -/
theorem mem_insertFrameFile (k : Nat) (f : RunFile) :
    ∀ m p, p ∈ insertFrameFile m k f → p.1 = k ∨ p ∈ m := by
  intro m
  induction m with
  | nil =>
    intro p h
    simp only [insertFrameFile, List.mem_singleton] at h
    exact Or.inl (by rw [h])
  | cons q m ih =>
    obtain ⟨k0, gs⟩ := q
    intro p h
    simp only [insertFrameFile] at h
    split at h
    · rcases List.mem_cons.mp h with rfl | h
      · exact Or.inl rfl
      · exact Or.inr h
    · split at h
      case isTrue h2 =>
        rcases List.mem_cons.mp h with rfl | h
        · exact Or.inl h2.symm
        · exact Or.inr (List.mem_cons_of_mem _ h)
      case isFalse h2 =>
        rcases List.mem_cons.mp h with rfl | h
        · exact Or.inr (List.mem_cons_self _ _)
        · rcases ih p h with h | h
          · exact Or.inl h
          · exact Or.inr (List.mem_cons_of_mem _ h)

/-- Grouping-insert preserves strictly ascending keys. -/
theorem pairwise_insertFrameFile (k : Nat) (f : RunFile) :
    ∀ m, m.Pairwise (fun a b => a.1 < b.1) →
    (insertFrameFile m k f).Pairwise (fun a b => a.1 < b.1) := by
  intro m
  induction m with
  | nil => intro _; simp [insertFrameFile]
  | cons q m ih =>
    obtain ⟨k0, gs⟩ := q
    intro hp
    rw [List.pairwise_cons] at hp
    obtain ⟨hhead, htail⟩ := hp
    simp only [insertFrameFile]
    split
    case isTrue h1 =>
      refine List.pairwise_cons.mpr ⟨?_, List.pairwise_cons.mpr ⟨hhead, htail⟩⟩
      intro z hz
      rcases List.mem_cons.mp hz with rfl | hz
      · exact h1
      · exact lt_trans h1 (hhead z hz)
    case isFalse h1 =>
      split
      case isTrue h2 =>
        refine List.pairwise_cons.mpr ⟨?_, htail⟩
        intro z hz
        exact hhead z hz
      case isFalse h2 =>
        refine List.pairwise_cons.mpr ⟨?_, ih htail⟩
        intro z hz
        rcases mem_insertFrameFile k f m z hz with hzk | hz
        · show k0 < z.1
          rw [hzk]
          omega
        · exact hhead z hz

/-- Lookup misses a list whose keys are all above the probe. -/
theorem lookupGroups_none (j : Nat) :
    ∀ m, (∀ p ∈ m, j < p.1) → lookupGroups m j = none := by
  intro m h
  unfold lookupGroups
  rw [List.find?_eq_none.mpr]
  · rfl
  · intro p hp
    have := h p hp
    simp
    omega

/-- Lookup at the head key. -/
theorem lookupGroups_cons_pos (k0 : Nat) (gs : List RunFile)
    (m : List (Nat × List RunFile)) (j : Nat) (h : k0 = j) :
    lookupGroups ((k0, gs) :: m) j = some gs := by
  unfold lookupGroups
  rw [List.find?_cons_of_pos _ (by simp [h])]
  rfl

/-- Lookup past a different head key. -/
theorem lookupGroups_cons_neg (k0 : Nat) (gs : List RunFile)
    (m : List (Nat × List RunFile)) (j : Nat) (h : ¬(k0 = j)) :
    lookupGroups ((k0, gs) :: m) j = lookupGroups m j := by
  unfold lookupGroups
  rw [List.find?_cons_of_neg _ (by simp [h])]

/-- Lookup after a grouping insert on a key-sorted map: the inserted key's
group gains the file at its end, other groups are unchanged. -/
theorem lookupGroups_insertFrameFile (k : Nat) (f : RunFile) (j : Nat) :
    ∀ m, m.Pairwise (fun a b => a.1 < b.1) →
    lookupGroups (insertFrameFile m k f) j
      = if j = k then some ((lookupGroups m k).getD [] ++ [f])
        else lookupGroups m j := by
  intro m
  induction m with
  | nil =>
    intro _
    by_cases hj : j = k
    · subst hj
      rw [if_pos rfl, show insertFrameFile [] j f = [(j, [f])] from rfl,
        lookupGroups_cons_pos j [f] [] j rfl]
      simp [lookupGroups]
    · rw [if_neg hj, show insertFrameFile [] k f = [(k, [f])] from rfl,
        lookupGroups_cons_neg k [f] [] j (fun hc => hj hc.symm)]
  | cons q m ih =>
    obtain ⟨k0, gs⟩ := q
    intro hp
    rw [List.pairwise_cons] at hp
    obtain ⟨hhead, htail⟩ := hp
    simp only [insertFrameFile]
    split
    case isTrue h1 =>
      by_cases hj : j = k
      · subst hj
        have hnone : lookupGroups ((k0, gs) :: m) j = none := by
          apply lookupGroups_none
          intro q hq
          rcases List.mem_cons.mp hq with rfl | hq
          · exact h1
          · exact lt_trans h1 (hhead q hq)
        rw [if_pos rfl, hnone, lookupGroups_cons_pos j [f] _ j rfl]
        rfl
      · rw [if_neg hj, lookupGroups_cons_neg k [f] _ j (fun hc => hj hc.symm)]
    case isFalse h1 =>
      split
      case isTrue h2 =>
        subst h2
        by_cases hj : j = k
        · subst hj
          rw [if_pos rfl, lookupGroups_cons_pos j (gs ++ [f]) m j rfl,
            lookupGroups_cons_pos j gs m j rfl]
          rfl
        · rw [if_neg hj, lookupGroups_cons_neg _ _ m j (fun hc => hj hc.symm),
            lookupGroups_cons_neg _ gs m j (fun hc => hj hc.symm)]
      case isFalse h2 =>
        by_cases hj : j = k0
        · subst hj
          have hjk : ¬(j = k) := fun hc => h2 (hc.symm)
          rw [if_neg hjk, lookupGroups_cons_pos j gs _ j rfl,
            lookupGroups_cons_pos j gs m j rfl]
        · rw [lookupGroups_cons_neg k0 gs _ j (fun hc => hj hc.symm), ih htail,
            lookupGroups_cons_neg k0 gs m j (fun hc => hj hc.symm)]
          by_cases hjk : j = k
          · subst hjk
            rw [if_pos rfl, if_pos rfl,
              lookupGroups_cons_neg k0 gs m j (fun hc => hj hc.symm)]
          · rw [if_neg hjk, if_neg hjk]

/-- Keys of the fold of grouping inserts are extracted frame numbers. -/
theorem groupFold_keys :
    ∀ (inputs : List RunFile) (m : List (Nat × List RunFile))
      (p : Nat × List RunFile),
    p ∈ inputs.foldl
      (fun acc f => insertFrameFile acc (strip_frame f.name.data) f) m →
    p ∈ m ∨ ∃ f ∈ inputs, p.1 = strip_frame f.name.data := by
  intro inputs
  induction inputs with
  | nil => intro m p h; exact Or.inl h
  | cons f fs ih =>
    intro m p h
    rcases ih _ p h with h | ⟨g, hg, hp⟩
    · rcases mem_insertFrameFile (strip_frame f.name.data) f m p h with hk | hm
      · exact Or.inr ⟨f, List.mem_cons_self f fs, hk⟩
      · exact Or.inl hm
    · exact Or.inr ⟨g, List.mem_cons_of_mem f hg, hp⟩

/-- The fold of grouping inserts preserves strictly ascending keys. -/
theorem groupFold_sorted :
    ∀ (inputs : List RunFile) (m : List (Nat × List RunFile)),
    m.Pairwise (fun a b => a.1 < b.1) →
    (inputs.foldl
        (fun acc f => insertFrameFile acc (strip_frame f.name.data) f)
        m).Pairwise (fun a b => a.1 < b.1) := by
  intro inputs
  induction inputs with
  | nil => intro m h; exact h
  | cons f fs ih =>
    intro m h
    exact ih _ (pairwise_insertFrameFile (strip_frame f.name.data) f m h)

/-- Lookup in the fold of grouping inserts: a frame number's group is the
submission-ordered sublist of inputs extracting to it, appended to what
the accumulator already held. -/
theorem groupFold_lookup :
    ∀ (inputs : List RunFile) (m : List (Nat × List RunFile)) (j : Nat),
    m.Pairwise (fun a b => a.1 < b.1) →
    lookupGroups
        (inputs.foldl
          (fun acc f => insertFrameFile acc (strip_frame f.name.data) f) m) j
      = (if (inputs.filter (fun f => strip_frame f.name.data == j)).isEmpty
         then lookupGroups m j
         else some ((lookupGroups m j).getD []
            ++ inputs.filter (fun f => strip_frame f.name.data == j))) := by
  intro inputs
  induction inputs with
  | nil => intro m j h; simp
  | cons f fs ih =>
    intro m j h
    rw [List.foldl_cons,
      ih _ j (pairwise_insertFrameFile (strip_frame f.name.data) f m h),
      lookupGroups_insertFrameFile (strip_frame f.name.data) f j m h]
    by_cases hj : j = strip_frame f.name.data
    · subst hj
      rw [List.filter_cons_of_pos (by simp), if_pos rfl]
      cases hfl : List.filter
          (fun g => strip_frame g.name.data == strip_frame f.name.data) fs with
      | nil => simp [hfl]
      | cons g gs => simp [hfl, List.append_assoc]
    · have hne : ¬(strip_frame f.name.data = j) := fun hc => hj hc.symm
      rw [List.filter_cons_of_neg (by simp [hne]), if_neg hj]

/-- Every extracted frame number is at most the sentinel value. -/
theorem strip_frame_le (s : List Char) : strip_frame s ≤ NO_FRAME := by
  have := strip_frame_lt s
  unfold NO_FRAME
  omega

/-- In a strictly ascending list, a member that bounds every element is
the last one. -/
theorem getLast?_sorted_max :
    ∀ (l : List Nat), l.Pairwise (· < ·) →
    ∀ x, x ∈ l → (∀ y ∈ l, y ≤ x) → l.getLast? = some x := by
  intro l
  induction l with
  | nil => intro _ x hx _; exact absurd hx (List.not_mem_nil x)
  | cons a l ih =>
    intro hp x hx hall
    cases l with
    | nil =>
      rcases List.mem_cons.mp hx with rfl | h
      · rfl
      · exact absurd h (List.not_mem_nil x)
    | cons b l2 =>
      rw [List.getLast?_cons_cons]
      have hx' : x ∈ b :: l2 := by
        rcases List.mem_cons.mp hx with rfl | h
        · have h1 : x < b := (List.pairwise_cons.mp hp).1 b (List.mem_cons_self b l2)
          have h2 : b ≤ x := hall b (List.mem_cons_of_mem _ (List.mem_cons_self b l2))
          omega
        · exact h
      exact ih (List.pairwise_cons.mp hp).2 x hx'
        (fun y hy => hall y (List.mem_cons_of_mem _ hy))

/-! Claim C6 (grouping). -/

/-- C6: grouping buckets the submitted files by extracted frame number
with strictly ascending (hence unique) keys; the group of any frame
number is exactly the submission-ordered sublist of inputs extracting to
it; and the no-frame group, when present, is always the last group,
because the sentinel is the largest `uint32` value. -/
theorem C6_holds (inputs : List RunFile) :
    ((groupFrames inputs).map Prod.fst).Pairwise (· < ·)
    ∧ (∀ j, lookupGroups (groupFrames inputs) j
        = (if (inputs.filter (fun f => strip_frame f.name.data == j)).isEmpty
           then none
           else some (inputs.filter (fun f => strip_frame f.name.data == j))))
    ∧ (NO_FRAME ∈ (groupFrames inputs).map Prod.fst →
        ((groupFrames inputs).map Prod.fst).getLast? = some NO_FRAME) := by
  have hsorted : (groupFrames inputs).Pairwise (fun a b => a.1 < b.1) :=
    groupFold_sorted inputs [] (by simp)
  refine ⟨?_, ?_, ?_⟩
  · rw [List.pairwise_map]
    exact hsorted
  · intro j
    rw [groupFrames, groupFold_lookup inputs [] j (by simp)]
    simp [lookupGroups]
  · intro hmem
    apply getLast?_sorted_max _ (by rw [List.pairwise_map]; exact hsorted)
      NO_FRAME hmem
    intro y hy
    obtain ⟨p, hp, hpy⟩ := List.mem_map.mp hy
    rcases groupFold_keys inputs [] p hp with h | ⟨f, _, hf⟩
    · exact absurd h (List.not_mem_nil p)
    · rw [← hpy, hf]
      exact strip_frame_le f.name.data

/-- C6, witness: a submission with two numbered files sharing a frame, a
third numbered file and a no-frame file; the no-frame group is last. -/
theorem C6_witness :
    ((groupFrames [⟨"a.0001.exr", []⟩, ⟨"b.0001.exr", []⟩, ⟨"c.0002.exr", []⟩,
        ⟨"d.exr", []⟩]).map Prod.fst).getLast? = some NO_FRAME :=
  (C6_holds [⟨"a.0001.exr", []⟩, ⟨"b.0001.exr", []⟩, ⟨"c.0002.exr", []⟩,
    ⟨"d.exr", []⟩]).2.2 (by decide)

/-! Claim C8 (output path computation). -/

/-- C8, counterexample to the claim as stated: a template whose rightmost
hash run has 32 characters.  The claim predicts the run replaced by the
frame number zero-padded to the run's length (31 zeros and a `7`); the
code formats through `snprintf(buf, 32, ...)`, whose 32-byte buffer cuts
the replacement to 31 characters — all zeros, the frame digit lost. -/
theorem C8_counterexample :
    outputName (List.replicate 32 '#') 7 ≠ outputNameSpec (List.replicate 32 '#') 7
    ∧ outputName (List.replicate 32 '#') 7 = List.replicate 31 '0'
    ∧ outputNameSpec (List.replicate 32 '#') 7
        = List.replicate 31 '0' ++ ['7'] := by
  refine ⟨by decide, by decide, by decide⟩

/-- C8, amended: when the rightmost hash run is at most 31 characters long
and the frame's decimal form fits the 32-byte format buffer, the run is
replaced by the frame number zero-padded exactly to the run's length; a
template without `'#'`, or a no-frame group, uses the template verbatim;
and the claim's two examples hold. -/
theorem C8_amended (tmpl : List Char) (frame : Nat) :
    (∀ e, findLastHash tmpl = some e → frame ≠ NO_FRAME →
      e - hashRunBegin tmpl e + 1 ≤ 31 → (Nat.toDigits 10 frame).length ≤ 31 →
      outputName tmpl frame = outputNameSpec tmpl frame)
    ∧ (findLastHash tmpl = none → outputName tmpl frame = tmpl)
    ∧ (frame = NO_FRAME → outputName tmpl frame = tmpl)
    ∧ outputName "out.####.exr".data 7 = "out.0007.exr".data
    ∧ outputName "out.exr".data 9 = "out.exr".data := by
  refine ⟨?_, ?_, ?_, by decide, by decide⟩
  · intro e he hframe hrun hdig
    have hlen : (padded (e - hashRunBegin tmpl e + 1) frame).length ≤ 31 := by
      simp only [padded, List.length_append, List.length_replicate]
      omega
    simp only [outputName, outputNameSpec, he]
    rw [if_pos hframe, if_pos hframe, List.take_of_length_le hlen]
  · intro he
    simp only [outputName, he]
  · intro he
    cases hf : findLastHash tmpl with
    | none => simp only [outputName, hf]
    | some e =>
      simp only [outputName, hf]
      rw [if_neg (by simp [he])]

/-- C8, witness: the amended theorem applied to a two-hash template and
frame 5. -/
theorem C8_witness :
    outputName "render.##.exr".data 5 = outputNameSpec "render.##.exr".data 5 :=
  (C8_amended "render.##.exr".data 5).1 8 (by decide) (by decide) (by decide)
    (by decide)

end Exrtool
